import Mathlib

set_option maxRecDepth 8000

namespace TreeClip

/-! Shallow embedding of the treeclip traversal-and-extraction engine:
`ExcludeMatcher` (src/core/exclude/exclude.rs, over the `ignore` crate's
gitignore semantics), the entry filter (src/core/traversal/filter.rs) and
`Walker::traverse` / `Walker::write_file_content`
(src/core/traversal/walker.rs).  Paths are component lists; the filesystem
is a finite tree; file-write I/O failures are out of the model (writes to
the output accumulate in a string).  The output destination is truncated
at open, before the walk, so a read of an entry that denotes the output
file under a different spelling returns the in-progress output, never the
prior run's content; the loop models this by resolving such reads against
the accumulated output. -/

-- ===================== Path utilities =====================

/-- Boolean component-wise test that `a` is an initial segment of `b`.
Models `Path::strip_prefix` succeeding (Rust paths compare per component). -/
def isPfx : List String → List String → Bool
  | [], _ => true
  | _ :: _, [] => false
  | a :: as, b :: bs => a = b && isPfx as bs

/-- Models `entry_path.strip_prefix(&self.root).unwrap_or(entry_path)` in
`Walker::write_file_content`: drop the root components when they are an
initial segment, otherwise return the path unchanged. -/
def stripPfx (root p : List String) : List String :=
  if isPfx root p then p.drop root.length else p

/-- Forward-slash display of a component path, as `Path::display` renders a
relative path on Unix. -/
def joinSlash : List String → String
  | [] => ""
  | [s] => s
  | s :: rest => s ++ "/" ++ joinSlash rest

/-- Trailing-whitespace removal on a character list (drop whitespace from
the end). -/
def dropTrailingWs (cs : List Char) : List Char :=
  (cs.reverse.dropWhile Char.isWhitespace).reverse

/-- Models Rust's `str::trim_end` (Unicode White_Space approximated by
`Char.isWhitespace`, which covers the ASCII whitespace of text files). -/
def rustTrimEnd (s : String) : String :=
  ⟨dropTrailingWs s.data⟩

/-- Filesystem path resolution for symlink-free paths: `.` components are
dropped and `..` pops the previous component, so two spellings denote the
same underlying file exactly when they canonicalise equally.  The program
never canonicalises paths itself (its output-skip check is literal
`PathBuf` equality), but the operating system resolves every path the
walker opens, and this relation is also the "canonical identity" the spec
speaks of. -/
def canonPath (p : List String) : List String :=
  p.foldl
    (fun acc c =>
      if c = "." then acc
      else if c = ".." then acc.dropLast
      else acc ++ [c])
    []

-- ===================== Glob patterns (the ignore crate, as used) =====================

/-- One token of a single path-component glob: a literal character, `?`,
`*` (any run of characters within the component), or a `[...]` character
class.  Models the glob syntax of the `ignore` crate with
`literal_separator` as gitignore uses it. -/
inductive GlobTok where
  | lit (c : Char)
  | qmark
  | star
  | cls (neg : Bool) (cs : List Char)
deriving DecidableEq, Repr

/-- All suffixes of a list, longest first, ending with `[]`. -/
def sufs {α : Type} : List α → List (List α)
  | [] => [[]]
  | a :: as => (a :: as) :: sufs as

/-- Matches a component glob against the characters of one path component.
`star` consumes any run of characters (it tries every suffix). -/
def matchComp : List GlobTok → List Char → Bool
  | [], cs => cs.isEmpty
  | .lit c :: ps, cs =>
    match cs with
    | [] => false
    | d :: ds => c = d && matchComp ps ds
  | .qmark :: ps, cs =>
    match cs with
    | [] => false
    | _ :: ds => matchComp ps ds
  | .cls neg set :: ps, cs =>
    match cs with
    | [] => false
    | d :: ds => (set.contains d != neg) && matchComp ps ds
  | .star :: ps, cs => (sufs cs).any (fun ds => matchComp ps ds)

/-- One segment of a compiled gitignore pattern: `**` (any number of whole
components) or a single-component glob. -/
inductive GlobComp where
  | anyDirs
  | comp (toks : List GlobTok)
deriving DecidableEq, Repr

/-- Matches a segment pattern against the components of a relative path. -/
def matchSegs : List GlobComp → List String → Bool
  | [], ss => ss.isEmpty
  | .comp p :: ps, ss =>
    match ss with
    | [] => false
    | s :: rest => matchComp p s.data && matchSegs ps rest
  | .anyDirs :: ps, ss => (sufs ss).any (fun rest => matchSegs ps rest)

/-- One compiled gitignore rule: negation (`!` line), directory-only
(trailing `/`), anchoring (leading `/` or an inner `/`), and the segment
pattern. -/
structure Rule where
  negated : Bool
  dirOnly : Bool
  anchored : Bool
  comps : List GlobComp
deriving DecidableEq, Repr

/-- Whether a rule applies to a path (given relative to the matcher root).
Directory-only rules need `isDir`; an unanchored rule matches the final
component at any depth (the crate compiles such a line with a leading
`**/`). -/
def Rule.applies (r : Rule) (rel : List String) (isDir : Bool) : Bool :=
  (!r.dirOnly || isDir) &&
    (if r.anchored then matchSegs r.comps rel
     else
       match rel.getLast? with
       | some last => matchSegs r.comps [last]
       | none => false)

-- ===================== Pattern-line parsing =====================

/-- Scans a `[...]` class body up to the closing `]`, returning the class
token and the remaining characters; reaching the end of the line first is
a glob syntax error. -/
def parseCls (neg : Bool) (acc : List Char) : List Char → Except Unit (GlobTok × List Char)
  | [] => .error ()
  | ']' :: rest => .ok (.cls neg acc.reverse, rest)
  | c :: rest => parseCls neg (c :: acc) rest

/-- Fuel-indexed compilation of one component's characters into glob
tokens (fuel only bounds recursion depth; it starts above the input
length, so the `0` case is unreachable).  An unclosed `[` or a trailing
`\` is a glob syntax error, as in the crate. -/
def compileCompAux : Nat → List Char → Except Unit (List GlobTok)
  | 0, _ => .error ()
  | _ + 1, [] => .ok []
  | fuel + 1, '*' :: cs => (compileCompAux fuel cs).map (.star :: ·)
  | fuel + 1, '?' :: cs => (compileCompAux fuel cs).map (.qmark :: ·)
  | _ + 1, ['\\'] => .error ()
  | fuel + 1, '\\' :: c :: cs => (compileCompAux fuel cs).map (.lit c :: ·)
  | fuel + 1, '[' :: cs =>
    match cs with
    | '!' :: body =>
      match parseCls true [] body with
      | .error _ => .error ()
      | .ok (t, rest) => (compileCompAux fuel rest).map (t :: ·)
    | body =>
      match parseCls false [] body with
      | .error _ => .error ()
      | .ok (t, rest) => (compileCompAux fuel rest).map (t :: ·)
  | fuel + 1, c :: cs => (compileCompAux fuel cs).map (.lit c :: ·)

/-- Compiles one component's characters into glob tokens. -/
def compileComp (cs : List Char) : Except Unit (List GlobTok) :=
  compileCompAux (cs.length + 1) cs

/-- Splits a character list at `/` into components. -/
def splitSlash : List Char → List (List Char)
  | [] => [[]]
  | '/' :: cs => [] :: splitSlash cs
  | c :: cs =>
    match splitSlash cs with
    | [] => [[c]]
    | g :: gs => (c :: g) :: gs

/-- Compiles each component, turning a bare `**` component into the
any-directories segment. -/
def compileSegs : List (List Char) → Except Unit (List GlobComp)
  | [] => .ok []
  | seg :: rest =>
    match (if seg = ['*', '*'] then .ok .anyDirs else (compileComp seg).map .comp :
        Except Unit GlobComp) with
    | .error _ => .error ()
    | .ok g =>
      match compileSegs rest with
      | .error _ => .error ()
      | .ok gs => .ok (g :: gs)

/-- Parses one gitignore line as `GitignoreBuilder::add_line` does: blank
lines and `#` comments yield no rule; a leading `!` negates; a trailing
`/` restricts to directories; a leading or inner `/` anchors the pattern
at the matcher root; a glob syntax error in any component fails the line. -/
def parseLine (line : String) : Except Unit (Option Rule) :=
  match line.data with
  | [] => .ok none
  | '#' :: _ => .ok none
  | cs =>
    match (if cs.head? = some '!' then (true, cs.tail) else (false, cs) :
        Bool × List Char) with
    | (neg, cs1) =>
      if cs1.isEmpty then .ok none
      else
        match (if cs1.getLast? = some '/' then (true, cs1.dropLast) else (false, cs1) :
            Bool × List Char) with
        | (dirOnly, cs2) =>
          match (if cs2.head? = some '/' then (true, cs2.tail) else (false, cs2) :
              Bool × List Char) with
          | (anch0, cs3) =>
            let segs := splitSlash cs3
            let anchored := anch0 || decide (1 < segs.length)
            match compileSegs segs with
            | .error _ => .error ()
            | .ok comps => .ok (some ⟨neg, dirOnly, anchored, comps⟩)

-- ===================== ExcludeMatcher =====================

/-- The error propagated out of `ExcludeMatcher::new` when a CLI pattern
fails to compile: the underlying glob error of the `ignore` crate, which
names the offending pattern (there is no index/position field). -/
inductive GlobError where
  | invalidGlob (pat : String)
deriving DecidableEq, Repr

/-- Rules obtained from the optional `<root>/.treeclipignore` file.
`GitignoreBuilder::add` parses every line and collects per-line errors,
and `ExcludeMatcher::new` discards its returned error value, so invalid
lines are dropped while valid lines still become rules. -/
def parseIgnoreFileRules (lines : List String) : List Rule :=
  lines.filterMap (fun l =>
    match parseLine l with
    | .ok r => r
    | .error _ => none)

/-- Adds CLI patterns after the ignore-file rules, as the
`builder.add_line(None, pat)?` loop does: the first pattern that fails to
compile aborts the build with the glob error naming it. -/
def addCliRules (acc : List Rule) : List String → Except GlobError (List Rule)
  | [] => .ok acc
  | p :: ps =>
    match parseLine p with
    | .error _ => .error (.invalidGlob p)
    | .ok none => addCliRules acc ps
    | .ok (some r) => addCliRules (acc ++ [r]) ps

/-- Models `ExcludeMatcher::new(root, cli_patterns)`.  The ignore-file
contents are passed in as `ignoreLines` (`none` when the file is absent);
the rule list is ignore-file rules first, then CLI rules, in order. -/
def ExcludeMatcher.new (ignoreLines : Option (List String)) (cliPatterns : List String) :
    Except GlobError (List Rule) :=
  addCliRules (parseIgnoreFileRules (ignoreLines.getD [])) cliPatterns

/-- Models `ExcludeMatcher::is_excluded(path)`, i.e.
`self.inner.matched(path, path.is_dir()).is_ignore()`: the path is taken
relative to the matcher root when the root is an initial segment, and the
last rule that applies decides (a negated rule un-ignores). -/
def ExcludeMatcher.isExcluded (rules : List Rule) (root p : List String) (isDir : Bool) : Bool :=
  match rules.reverse.find? (fun r => r.applies (stripPfx root p) isDir) with
  | some r => !r.negated
  | none => false

-- ===================== Filesystem and walk =====================

/-- A filesystem entry as seen by the walker: a regular file with its
textual content, a directory with named children (in enumeration order),
or an entry whose access fails during the walk (permission error or
race). -/
inductive Entry where
  | file (content : String)
  | dir (children : List (String × Entry))
  | denied

/-- The kind of a yielded walk entry (`entry_path.is_file()` distinguishes
files from directories; a file carries the content later read by
`fs::read_to_string`). -/
inductive EKind where
  | file (content : String)
  | dir
deriving DecidableEq, Repr

/-- One item produced by the `walkdir` iterator after `filter_entry`:
either an accessible entry with its path, or an access error at a path
(errors bypass the `filter_entry` predicate). -/
inductive WalkItem where
  | ok (path : List String) (kind : EKind)
  | err (path : List String)
deriving DecidableEq, Repr

/-- The path an item was yielded at. -/
def WalkItem.path : WalkItem → List String
  | .ok p _ => p
  | .err p => p

/-- Models `path.is_dir()` for an accessible entry. -/
def Entry.isDir : Entry → Bool
  | .dir _ => true
  | _ => false

mutual

/-- Models the `WalkDir::new(input).into_iter().filter_entry(pred)` stream
in `Walker::traverse`: depth-first, the entry itself first, then (for a
directory that passes the predicate) its children in enumeration order.
An entry failing the predicate is pruned together with its whole subtree;
an inaccessible entry yields an error item without being filtered.  The
content attached to a file item is its on-disk content, which the engine
never mutates unless the file is the output destination itself; a read of
an entry aliasing the output is therefore resolved by the loop against the
in-progress output, not against this attached content. -/
def walkTree (pr : List String → Entry → Bool) (p : List String) : Entry → List WalkItem
  | .denied => [.err p]
  | .file c => if pr p (.file c) then [.ok p (.file c)] else []
  | .dir cs => if pr p (.dir cs) then .ok p .dir :: walkChildren pr p cs else []

/-- Walks the children of a directory at path `p`, in order. -/
def walkChildren (pr : List String → Entry → Bool) (p : List String) :
    List (String × Entry) → List WalkItem
  | [] => []
  | (n, e) :: rest => walkTree pr (p ++ [n]) e ++ walkChildren pr p rest

end

/-- Models `filter::is_hidden`: the entry's final name component starts
with `.` (an entry with no final component is not hidden). -/
def hiddenName (p : List String) : Bool :=
  match p.getLast? with
  | some n =>
    match n.data with
    | c :: _ => c = '.'
    | [] => false
  | none => false

-- ===================== Walker =====================

/-- Models the `Walker` struct: exclusion root, input root, output
destination, CLI exclusion patterns. -/
structure Walker where
  root : List String
  input : List String
  output : List String
  excludePatterns : List String
deriving DecidableEq, Repr

/-- The `filter_entry` closure in `Walker::traverse`:
`!excluded && (!skip_hidden || !is_hidden(entry))`. -/
def entryAllowed (rules : List Rule) (w : Walker) (skipHidden : Bool)
    (p : List String) (e : Entry) : Bool :=
  !ExcludeMatcher.isExcluded rules w.root p e.isDir && (!skipHidden || !hiddenName p)

/-- Typed traversal failures surfaced by `Walker::traverse`
(src/core/errors.rs): an inaccessible directory entry (`WalkFailed`, which
names the input root) or zero files collected (`NoFilesFound`, also naming
the input root). -/
inductive TraversalError where
  | walkFailed (path : List String)
  | noFilesFound (path : List String)
deriving DecidableEq, Repr

/-- A run fails either before the walk, because the exclusion matcher
could not be built, or during/after the walk with a traversal error. -/
inductive RunError where
  | pattern (e : GlobError)
  | traversal (e : TraversalError)
deriving DecidableEq, Repr

deriving instance DecidableEq for Except

/-- The observable outcome of one `Walker::traverse` call: the final
content of the output destination (`none` when the run failed before the
output file was created/truncated) and the typed result, carrying the
collected file count on success. -/
structure RunResult where
  written : Option String
  outcome : Except RunError Nat
deriving DecidableEq, Repr

/-- Models `Walker::write_file_content` minus the separator: the header
line `==> <relative-path>` (the path stripped of the exclusion root when
possible), the content with trailing whitespace trimmed, one newline. -/
def renderRecord (root p : List String) (content : String) : String :=
  "==> " ++ joinSlash (stripPfx root p) ++ "\n" ++ rustTrimEnd content ++ "\n"

/-- Models the per-entry loop of `Walker::traverse` over the walk stream.
An access error aborts with `WalkFailed` naming the input root; an entry
whose path literally equals the output destination is skipped before the
file test; every other file bumps the count and is written as a blank-line
separator (when not first), the `==> ` header, then the content returned
by `fs::read_to_string` with trailing whitespace trimmed and one newline.
The output destination was truncated at open, so a path that canonically
aliases the output reads the in-progress output as it stands after the
header write (everything accumulated so far, separator and header
included), while any other path reads its on-disk content.  A zero count
at the end is `NoFilesFound` naming the input root. -/
def runLoop (w : Walker) : List WalkItem → String → Nat → Bool → String × Except RunError Nat
  | [], acc, n, _ =>
    (acc, if n = 0 then .error (.traversal (.noFilesFound w.input)) else .ok n)
  | .err _ :: _, acc, _, _ => (acc, .error (.traversal (.walkFailed w.input)))
  | .ok p k :: rest, acc, n, first =>
    if p = w.output then runLoop w rest acc n first
    else
      match k with
      | .file c =>
        if canonPath p = canonPath w.output then
          let acc1 := acc ++ ((if first then "" else "\n") ++
            ("==> " ++ joinSlash (stripPfx w.root p) ++ "\n"))
          runLoop w rest (acc1 ++ (rustTrimEnd acc1 ++ "\n")) (n + 1) false
        else
          runLoop w rest (acc ++ ((if first then "" else "\n") ++ renderRecord w.root p c))
            (n + 1) false
      | .dir => runLoop w rest acc n first

/-- Models `Walker::traverse(run_args)`: build the exclusion matcher (a
failure aborts before the output destination is touched), create/truncate
the output, then run the filtered walk.  `fs` is the directory tree the
walk enumerates (the tree as it stands when the walk starts); reads of
entries that canonically alias the just-truncated output destination are
resolved by the loop against the in-progress output.  `ignoreLines` is
the content of `<root>/.treeclipignore` (`none` when absent); the success
value is the collected file count. -/
def Walker.traverse (w : Walker) (skipHidden : Bool) (ignoreLines : Option (List String))
    (fs : Entry) : RunResult :=
  match ExcludeMatcher.new ignoreLines w.excludePatterns with
  | .error e => ⟨none, .error (.pattern e)⟩
  | .ok rules =>
    let res := runLoop w (walkTree (entryAllowed rules w skipHidden) w.input fs) "" 0 true
    ⟨some res.1, res.2⟩

-- ===================== Derived views used by the lemmas =====================

/-- The record stream a walk-item list gives rise to: output-path entries
and directories contribute nothing, every other file contributes its path
and content, in order. -/
def recsOfItems (w : Walker) (items : List WalkItem) : List (List String × String) :=
  items.filterMap (fun i =>
    match i with
    | .ok p (.file c) => if p = w.output then none else some (p, c)
    | _ => none)

/-- Whether a walk-item list contains an access error. -/
def hasErr (items : List WalkItem) : Bool :=
  items.any (fun i =>
    match i with
    | .err _ => true
    | .ok _ _ => false)

/-- The records of a full run (the walk stream filtered to contributing
files), for a successfully built rule list. -/
def walkRecords (rules : List Rule) (w : Walker) (skipHidden : Bool) (fs : Entry) :
    List (List String × String) :=
  recsOfItems w (walkTree (entryAllowed rules w skipHidden) w.input fs)

/-- Truncation of the count-then-finish step of `Walker::traverse`: a zero
count is `NoFilesFound`, otherwise the count is the success value. -/
def finishCount (w : Walker) (n : Nat) : Except RunError Nat :=
  if n = 0 then .error (.traversal (.noFilesFound w.input)) else .ok n

/-- Whether an entry is a regular file. -/
def Entry.isFile : Entry → Bool
  | .file _ => true
  | _ => false

/-- Removes the regular file at relative position `rel` from a tree, if
present (removing nothing otherwise).  Two filesystem states are
"identical except for the prior content or existence of the file at
`rel`" exactly when their erasures at `rel` are equal. -/
def eraseFile : Entry → List String → Entry
  | t, [] => t
  | .file c, _ :: _ => .file c
  | .denied, _ :: _ => .denied
  | .dir cs, [n] => .dir (cs.filter (fun ne => !(ne.1 = n && ne.2.isFile)))
  | .dir cs, n :: r :: rest =>
    .dir (cs.map (fun ne => if ne.1 = n then (ne.1, eraseFile ne.2 (r :: rest)) else ne))

/-- Keeps every walk item except a regular-file item at path `out`. -/
def keepItem (out : List String) : WalkItem → Bool
  | .ok p (.file _) => decide (p ≠ out)
  | _ => true

-- ===================== Concrete inputs for the claims =====================

/-- The two-file tree of the format round-trip scenario: `a.txt`
containing "hello" and `b/c.txt` containing "world". -/
def fsRoundTrip : Entry :=
  .dir [("a.txt", .file "hello"), ("b", .dir [("c.txt", .file "world")])]

/-- A walker whose exclusion root and input root coincide and whose
output destination lies outside the input tree. -/
def wRoundTrip : Walker := ⟨["r"], ["r"], ["out"], []⟩

/-- A tree holding one readable file and one entry whose access fails. -/
def fsDenied : Entry := .dir [("a.txt", .file "hi"), ("bad", .denied)]

/-- A walker whose configured output path `out.txt` names the same file as
the walked entry `./out.txt`, but spelled without the leading `.`
component. -/
def wSelfRef : Walker := ⟨["."], ["."], ["out.txt"], []⟩

/-- The input tree of the self-reference scenario: the output destination
holds its prior content "OLD" next to an ordinary file. -/
def fsSelfRef : Entry := .dir [("out.txt", .file "OLD"), ("x.txt", .file "hi")]

/-- A walker with a CLI exclusion pattern that fails to compile (an
unclosed character class). -/
def wBadPattern : Walker := ⟨["r"], ["r"], ["out"], ["["]⟩

/-- A one-file tree. -/
def fsOneFile : Entry := .dir [("a.txt", .file "hi")]

/-- An input root with no files at all. -/
def fsEmptyDir : Entry := .dir []

/-- A walker excluding the directory name `b` via a CLI pattern. -/
def wExclB : Walker := ⟨["r"], ["r"], ["out"], ["b"]⟩

/-- The compiled form of the pattern `foo/*`. -/
def c7r1 : Rule := ⟨false, false, true, [.comp ("foo".data.map .lit), .comp [.star]]⟩

/-- The compiled form of the pattern `!foo/keep.txt`. -/
def c7r2 : Rule := ⟨true, false, true, [.comp ("foo".data.map .lit), .comp ("keep.txt".data.map .lit)]⟩

/-- The compiled form of the rule list `foo/*` then `!foo/keep.txt`
(what `ExcludeMatcher::new` builds for those two CLI patterns). -/
def c7rules : List Rule := [c7r1, c7r2]

-- ===================== Prefix lemmas =====================

theorem pfx_refl (p : List String) : isPfx p p = true := by
  induction p with
  | nil => rfl
  | cons a as ih => simp [isPfx, ih]

theorem pfx_append (p q : List String) : isPfx p (p ++ q) = true := by
  induction p with
  | nil => rfl
  | cons a as ih => simp [isPfx, ih]

theorem pfx_len {a b : List String} (h : isPfx a b = true) : a.length ≤ b.length := by
  induction a generalizing b with
  | nil => simp
  | cons x xs ih =>
    cases b with
    | nil => simp [isPfx] at h
    | cons y ys =>
      simp only [isPfx, Bool.and_eq_true, decide_eq_true_eq] at h
      simpa using ih h.2

theorem pfx_eq_of_len {a b : List String} (h : isPfx a b = true)
    (hl : b.length ≤ a.length) : a = b := by
  induction a generalizing b with
  | nil =>
    cases b with
    | nil => rfl
    | cons y ys => simp at hl
  | cons x xs ih =>
    cases b with
    | nil => simp [isPfx] at h
    | cons y ys =>
      simp only [isPfx, Bool.and_eq_true, decide_eq_true_eq] at h
      simp only [List.length_cons, Nat.add_le_add_iff_right] at hl
      rw [h.1, ih h.2 hl]

theorem pfx_antisym {a b : List String} (h1 : isPfx a b = true)
    (h2 : isPfx b a = true) : a = b :=
  pfx_eq_of_len h1 (pfx_len h2)

theorem pfx_comparable {a b c : List String} (h1 : isPfx a c = true)
    (h2 : isPfx b c = true) : isPfx a b = true ∨ isPfx b a = true := by
  induction c generalizing a b with
  | nil =>
    cases a with
    | nil => exact Or.inl rfl
    | cons x xs => simp [isPfx] at h1
  | cons z zs ih =>
    cases a with
    | nil => exact Or.inl rfl
    | cons x xs =>
      cases b with
      | nil => exact Or.inr rfl
      | cons y ys =>
        simp only [isPfx, Bool.and_eq_true, decide_eq_true_eq] at h1 h2
        rcases ih h1.2 h2.2 with h | h
        · exact Or.inl (by simp [isPfx, h1.1, h2.1, h])
        · exact Or.inr (by simp [isPfx, h1.1, h2.1, h])

theorem pfx_trans {a b c : List String} (h1 : isPfx a b = true)
    (h2 : isPfx b c = true) : isPfx a c = true := by
  induction a generalizing b c with
  | nil => rfl
  | cons x xs ih =>
    cases b with
    | nil => simp [isPfx] at h1
    | cons y ys =>
      cases c with
      | nil => simp [isPfx] at h2
      | cons z zs =>
        simp only [isPfx, Bool.and_eq_true, decide_eq_true_eq] at h1 h2 ⊢
        exact ⟨h1.1.trans h2.1, ih h1.2 h2.2⟩

theorem pfx_snoc {p d : List String} {n : String} (h1 : isPfx p d = true)
    (h2 : isPfx d (p ++ [n]) = true) : d = p ∨ d = p ++ [n] := by
  rcases Nat.lt_or_ge d.length (p.length + 1) with hl | hl
  · exact Or.inl ((pfx_eq_of_len h1 (by omega)).symm)
  · refine Or.inr (pfx_eq_of_len h2 ?_)
    simp only [List.length_append, List.length_singleton]
    omega

theorem stripPfx_append (root rel : List String) : stripPfx root (root ++ rel) = rel := by
  simp [stripPfx, pfx_append, List.drop_left]

-- ===================== Walk path lemmas =====================

mutual

theorem walkTree_pfx (pr : List String → Entry → Bool) (p : List String) (t : Entry) :
    ∀ i ∈ walkTree pr p t, isPfx p i.path = true := by
  match t with
  | .denied =>
    intro i hi
    simp only [walkTree, List.mem_singleton] at hi
    subst hi
    exact pfx_refl p
  | .file c =>
    intro i hi
    simp only [walkTree] at hi
    split at hi
    · simp only [List.mem_singleton] at hi
      subst hi
      exact pfx_refl p
    · simp at hi
  | .dir cs =>
    intro i hi
    simp only [walkTree] at hi
    split at hi
    · rcases List.mem_cons.mp hi with h | h
      · subst h
        exact pfx_refl p
      · exact (walkChildren_pfx pr p cs i h).1
    · simp at hi

theorem walkChildren_pfx (pr : List String → Entry → Bool) (p : List String)
    (cs : List (String × Entry)) :
    ∀ i ∈ walkChildren pr p cs, isPfx p i.path = true ∧ p.length < i.path.length := by
  match cs with
  | [] => intro i hi; simp [walkChildren] at hi
  | (n, e) :: rest =>
    intro i hi
    simp only [walkChildren, List.mem_append] at hi
    rcases hi with h | h
    · have hp := walkTree_pfx pr (p ++ [n]) e i h
      have hlen : (p ++ [n]).length ≤ i.path.length := pfx_len hp
      refine ⟨pfx_trans (pfx_append p [n]) hp, ?_⟩
      simp only [List.length_append, List.length_singleton] at hlen
      omega
    · exact walkChildren_pfx pr p rest i h

end

-- ===================== Descent-pruning lemmas =====================

mutual

theorem pruneTree {pr : List String → Entry → Bool} {d : List String}
    (hd : ∀ cs', pr d (.dir cs') = false) (p : List String) (t : Entry)
    (hpd : isPfx p d = true) :
    ∀ i ∈ walkTree pr p t, isPfx d i.path = true → d = i.path := by
  match t with
  | .denied =>
    intro i hi hdi
    simp only [walkTree, List.mem_singleton] at hi
    subst hi
    exact pfx_antisym hdi hpd
  | .file c =>
    intro i hi hdi
    simp only [walkTree] at hi
    split at hi
    · simp only [List.mem_singleton] at hi
      subst hi
      exact pfx_antisym hdi hpd
    · simp at hi
  | .dir cs =>
    intro i hi hdi
    simp only [walkTree] at hi
    split at hi
    · rename_i hpr
      rcases List.mem_cons.mp hi with h | h
      · subst h
        exact pfx_antisym hdi hpd
      · have hdp : d ≠ p := by
          intro he
          rw [he] at hd
          rw [hd cs] at hpr
          exact Bool.false_ne_true hpr
        exact pruneChildren hd p cs hpd hdp i h hdi
    · simp at hi

theorem pruneChildren {pr : List String → Entry → Bool} {d : List String}
    (hd : ∀ cs', pr d (.dir cs') = false) (p : List String)
    (cs : List (String × Entry)) (hpd : isPfx p d = true) (hdp : d ≠ p) :
    ∀ i ∈ walkChildren pr p cs, isPfx d i.path = true → d = i.path := by
  match cs with
  | [] => intro i hi; simp [walkChildren] at hi
  | (n, e) :: rest =>
    intro i hi hdi
    simp only [walkChildren, List.mem_append] at hi
    rcases hi with h | h
    · by_cases hc : isPfx (p ++ [n]) d = true
      · exact pruneTree hd (p ++ [n]) e hc i h hdi
      · have h1 : isPfx (p ++ [n]) i.path = true := walkTree_pfx pr (p ++ [n]) e i h
        rcases pfx_comparable hdi h1 with hx | hx
        · rcases pfx_snoc hpd hx with he | he
          · exact absurd he hdp
          · exact absurd (by rw [he]; exact pfx_refl _) hc
        · exact absurd hx hc
    · exact pruneChildren hd p rest hpd hdp i h hdi

end

-- ===================== Record-stream lemmas =====================

theorem recs_cons_err (w : Walker) (q : List String) (rest : List WalkItem) :
    recsOfItems w (.err q :: rest) = recsOfItems w rest := by
  simp [recsOfItems, List.filterMap_cons]

theorem recs_cons_dir (w : Walker) (q : List String) (rest : List WalkItem) :
    recsOfItems w (.ok q .dir :: rest) = recsOfItems w rest := by
  simp [recsOfItems, List.filterMap_cons]

theorem recs_cons_out (w : Walker) (k : EKind) (rest : List WalkItem) :
    recsOfItems w (.ok w.output k :: rest) = recsOfItems w rest := by
  cases k with
  | file c => simp [recsOfItems, List.filterMap_cons]
  | dir => simp [recsOfItems, List.filterMap_cons]

theorem recs_cons_file (w : Walker) (q : List String) (c : String)
    (rest : List WalkItem) (h : ¬q = w.output) :
    recsOfItems w (.ok q (.file c) :: rest) = (q, c) :: recsOfItems w rest := by
  simp [recsOfItems, List.filterMap_cons, h]

-- ===================== Loop lemmas =====================

theorem runLoop_err (w : Walker) (items : List WalkItem) (h : hasErr items = true) :
    ∀ acc n first,
      (runLoop w items acc n first).2 = .error (.traversal (.walkFailed w.input)) := by
  induction items with
  | nil => simp [hasErr] at h
  | cons i rest ih =>
    intro acc n first
    cases i with
    | err q => simp [runLoop]
    | ok q k =>
      have h' : hasErr rest = true := by simpa [hasErr, List.any_cons] using h
      simp only [runLoop]
      split
      · exact ih h' _ _ _
      · cases k with
        | file c =>
          by_cases hcanon : canonPath q = canonPath w.output
          · simp only [if_pos hcanon]
            exact ih h' _ _ _
          · simp only [if_neg hcanon]
            exact ih h' _ _ _
        | dir => exact ih h' _ _ _

theorem runLoop_snd_indep (w : Walker) (items : List WalkItem) :
    ∀ acc acc' n first first',
      (runLoop w items acc n first).2 = (runLoop w items acc' n first').2 := by
  induction items with
  | nil => intro acc acc' n first first'; simp [runLoop]
  | cons i rest ih =>
    intro acc acc' n first first'
    cases i with
    | err q => simp [runLoop]
    | ok q k =>
      by_cases hq : q = w.output
      · simp only [runLoop, if_pos hq]
        exact ih _ _ _ _ _
      · cases k with
        | dir =>
          simp only [runLoop, if_neg hq]
          exact ih _ _ _ _ _
        | file c =>
          simp only [runLoop, if_neg hq]
          by_cases hcanon : canonPath q = canonPath w.output
          · simp only [if_pos hcanon]
            exact ih _ _ _ _ _
          · simp only [if_neg hcanon]
            exact ih _ _ _ _ _

theorem runLoop_outcome (w : Walker) (items : List WalkItem) (h : hasErr items = false) :
    ∀ acc n first,
      (runLoop w items acc n first).2 =
        finishCount w (n + (recsOfItems w items).length) := by
  induction items with
  | nil =>
    intro acc n first
    simp [runLoop, recsOfItems, finishCount]
  | cons i rest ih =>
    intro acc n first
    cases i with
    | err q => simp [hasErr, List.any_cons] at h
    | ok q k =>
      have h' : hasErr rest = false := by simpa [hasErr, List.any_cons] using h
      by_cases hq : q = w.output
      · rw [show runLoop w (.ok q k :: rest) acc n first = runLoop w rest acc n first from by
          simp [runLoop, hq]]
        rw [ih h' _ _ _, hq, recs_cons_out]
      · cases k with
        | dir =>
          rw [show runLoop w (.ok q .dir :: rest) acc n first = runLoop w rest acc n first from by
            simp [runLoop, hq]]
          rw [ih h' _ _ _, recs_cons_dir]
        | file c =>
          have hstep : (runLoop w (.ok q (.file c) :: rest) acc n first).2 =
              (runLoop w rest "" (n + 1) false).2 := by
            simp only [runLoop, if_neg hq]
            by_cases hcanon : canonPath q = canonPath w.output
            · simp only [if_pos hcanon]
              exact runLoop_snd_indep w rest _ "" (n + 1) false false
            · simp only [if_neg hcanon]
              exact runLoop_snd_indep w rest _ "" (n + 1) false false
          rw [hstep, ih h' "" (n + 1) false, recs_cons_file w q c rest hq]
          have hn : n + 1 + (recsOfItems w rest).length =
              n + ((q, c) :: recsOfItems w rest).length := by
            simp only [List.length_cons]
            omega
          rw [hn]

theorem pfx_cancel (p a b : List String) : isPfx (p ++ a) (p ++ b) = isPfx a b := by
  induction p with
  | nil => rfl
  | cons x xs ih => simp [isPfx, ih]

theorem keepItem_of_path_ne {out : List String} {i : WalkItem} (h : i.path ≠ out) :
    keepItem out i = true := by
  cases i with
  | err q => rfl
  | ok q k =>
    cases k with
    | dir => rfl
    | file c =>
      have hq : q ≠ out := h
      simp [keepItem, hq]

theorem filter_keep_not_under {pr : List String → Entry → Bool} {q out : List String}
    (e : Entry) (h : isPfx q out = false) :
    (walkTree pr q e).filter (keepItem out) = walkTree pr q e := by
  refine List.filter_eq_self.mpr (fun i hi => keepItem_of_path_ne (fun hp => ?_))
  have hq := walkTree_pfx pr q e i hi
  rw [hp] at hq
  rw [hq] at h
  simp at h

theorem filter_keep_at_out {pr : List String → Entry → Bool} {out : List String}
    (cs₂ : List (String × Entry)) :
    (walkTree pr out (.dir cs₂)).filter (keepItem out) = walkTree pr out (.dir cs₂) := by
  refine List.filter_eq_self.mpr (fun i hi => ?_)
  rw [walkTree] at hi
  split at hi
  · rcases List.mem_cons.mp hi with h | h
    · subst h; rfl
    · have hlen := (walkChildren_pfx pr out cs₂ i h).2
      exact keepItem_of_path_ne (fun hp => by rw [hp] at hlen; omega)
  · simp at hi

theorem erase_children_filter (pr : List String → Entry → Bool) (p : List String)
    (n : String) (cs : List (String × Entry)) :
    walkChildren pr p (cs.filter (fun ne => !(ne.1 = n && ne.2.isFile))) =
      (walkChildren pr p cs).filter (keepItem (p ++ [n])) := by
  induction cs with
  | nil => rfl
  | cons me rest ih =>
    obtain ⟨m, e⟩ := me
    rw [walkChildren, List.filter_append, ← ih]
    by_cases hme : (m = n && e.isFile) = true
    · rw [List.filter_cons_of_neg (by simp [hme])]
      simp only [Bool.and_eq_true, decide_eq_true_eq] at hme
      obtain ⟨hm, hf⟩ := hme
      cases e with
      | file c =>
        subst hm
        rw [show (walkTree pr (p ++ [m]) (.file c)).filter (keepItem (p ++ [m])) = [] from ?_]
        · rfl
        · rw [walkTree]
          split
          · simp [keepItem]
          · rfl
      | dir cs₂ => simp [Entry.isFile] at hf
      | denied => simp [Entry.isFile] at hf
    · rw [List.filter_cons_of_pos (by simp [hme]), walkChildren]
      congr 1
      by_cases hm : m = n
      · subst hm
        cases e with
        | file c => simp [Entry.isFile] at hme
        | dir cs₂ => exact (filter_keep_at_out cs₂).symm
        | denied => rfl
      · refine ((filter_keep_not_under e ?_).symm)
        rw [pfx_cancel p [m] [n]]
        simp [isPfx, hm]

mutual

theorem eraseWalk {pr : List String → Entry → Bool}
    (hdir : ∀ q cs1 cs2, pr q (.dir cs1) = pr q (.dir cs2))
    (t : Entry) (p rel : List String) (hrel : rel ≠ []) :
    walkTree pr p (eraseFile t rel) = (walkTree pr p t).filter (keepItem (p ++ rel)) := by
  match t, rel with
  | _, [] => exact absurd rfl hrel
  | .file c, x :: xs =>
    rw [show eraseFile (.file c) (x :: xs) = .file c from rfl, walkTree]
    split
    · rw [List.filter_cons_of_pos, List.filter_nil]
      refine keepItem_of_path_ne (fun hp => ?_)
      have hl := congrArg List.length hp
      simp [WalkItem.path, List.length_append] at hl
    · rfl
  | .denied, x :: xs =>
    rw [show eraseFile .denied (x :: xs) = .denied from rfl, walkTree]
    rfl
  | .dir cs, [n] =>
    rw [show eraseFile (.dir cs) [n] =
        .dir (cs.filter (fun ne => !(ne.1 = n && ne.2.isFile))) from rfl]
    rw [walkTree, walkTree,
      hdir p (cs.filter (fun ne => !(ne.1 = n && ne.2.isFile))) cs]
    split
    · rw [List.filter_cons_of_pos (by rfl)]
      rw [erase_children_filter]
    · rfl
  | .dir cs, n :: r :: rest =>
    rw [show eraseFile (.dir cs) (n :: r :: rest) =
        .dir (cs.map (fun ne =>
          if ne.1 = n then (ne.1, eraseFile ne.2 (r :: rest)) else ne)) from rfl]
    rw [walkTree, walkTree,
      hdir p (cs.map (fun ne =>
        if ne.1 = n then (ne.1, eraseFile ne.2 (r :: rest)) else ne)) cs]
    split
    · rw [List.filter_cons_of_pos (by rfl)]
      rw [erase_children_map hdir cs p n r rest]
    · rfl

theorem erase_children_map {pr : List String → Entry → Bool}
    (hdir : ∀ q cs1 cs2, pr q (.dir cs1) = pr q (.dir cs2))
    (cs : List (String × Entry)) (p : List String) (n r : String) (rest : List String) :
    walkChildren pr p (cs.map (fun ne =>
        if ne.1 = n then (ne.1, eraseFile ne.2 (r :: rest)) else ne)) =
      (walkChildren pr p cs).filter (keepItem (p ++ n :: r :: rest)) := by
  match cs with
  | [] => rfl
  | (m, e) :: tl =>
    rw [List.map_cons, walkChildren, walkChildren, List.filter_append,
      ← erase_children_map hdir tl p n r rest]
    by_cases hm : m = n
    · subst hm
      rw [if_pos rfl]
      have h1 := eraseWalk hdir e (p ++ [m]) (r :: rest) (by simp)
      have h2 : (p ++ [m]) ++ (r :: rest) = p ++ m :: r :: rest := by
        rw [List.append_assoc]
        rfl
      rw [h2] at h1
      rw [h1]
    · rw [if_neg hm]
      have hnp : isPfx (p ++ [m]) (p ++ n :: r :: rest) = false := by
        rw [pfx_cancel p [m] (n :: r :: rest)]
        simp [isPfx, hm]
      rw [filter_keep_not_under e hnp]

end

theorem matchComp_star_any (ds : List Char) : matchComp [.star] ds = true := by
  induction ds with
  | nil => rfl
  | cons d ds ih =>
    show ((d :: ds) :: sufs ds).any (fun t => matchComp [] t) = true
    rw [List.any_cons]
    have h : (sufs ds).any (fun t => matchComp [] t) = true := ih
    rw [h, Bool.or_true]

theorem matchComp_lits (cs : List Char) :
    ∀ ds, matchComp (cs.map .lit) ds = decide (cs = ds) := by
  induction cs with
  | nil =>
    intro ds
    cases ds with
    | nil => rfl
    | cons d ds => simp [matchComp]
  | cons c cs ih =>
    intro ds
    cases ds with
    | nil => simp [matchComp]
    | cons d ds =>
      by_cases hc : c = d
      · subst hc
        simp [matchComp, ih]
      · simp [matchComp, hc]

theorem stripPfx_nil (p : List String) : stripPfx [] p = p := by
  simp [stripPfx, isPfx]

theorem isExcluded_append (rules : List Rule) (root rel : List String) (isDir : Bool) :
    ExcludeMatcher.isExcluded rules root (root ++ rel) isDir =
      ExcludeMatcher.isExcluded rules [] rel isDir := by
  simp [ExcludeMatcher.isExcluded, stripPfx_append, stripPfx_nil]

-- ===================== Matcher-build lemmas =====================

theorem addCli_error (ps : List String) :
    ∀ acc e, addCliRules acc ps = .error e →
      ∃ p, p ∈ ps ∧ e = .invalidGlob p ∧ parseLine p = .error () := by
  induction ps with
  | nil => intro acc e h; simp [addCliRules] at h
  | cons p ps ih =>
    intro acc e h
    cases hp : parseLine p with
    | error u =>
      rw [addCliRules, hp] at h
      refine ⟨p, List.mem_cons_self p ps, ?_, ?_⟩
      · exact (Except.error.inj h).symm
      · cases u
        exact hp
    | ok r =>
      cases r with
      | none =>
        rw [addCliRules, hp] at h
        rcases ih _ _ h with ⟨q, hq, he, hpe⟩
        exact ⟨q, List.mem_cons_of_mem p hq, he, hpe⟩
      | some rule =>
        rw [addCliRules, hp] at h
        rcases ih _ _ h with ⟨q, hq, he, hpe⟩
        exact ⟨q, List.mem_cons_of_mem p hq, he, hpe⟩

-- ===================== Claims =====================

/-- C1 (counterexample): an input tree whose only flaw is one inaccessible
directory entry makes the whole run return an error (here `WalkFailed`
naming the input root), even though another file was collected — the
entry is not skipped with traversal continuing, contrary to the claim
that such an entry never causes the run to fail. -/
theorem c1_counterexample :
    (Walker.traverse wRoundTrip false none fsDenied).outcome =
      .error (.traversal (.walkFailed ["r"])) := by decide

/-- C1 (amended): a directory entry that cannot be accessed during the
walk aborts the entire run with `TraversalError::WalkFailed` naming the
input root (hard failure); inaccessible entries are not skipped. -/
theorem c1_walk_error_aborts_run (iL : Option (List String)) (w : Walker) (sh : Bool)
    (fs : Entry) (rules : List Rule)
    (hnew : ExcludeMatcher.new iL w.excludePatterns = .ok rules)
    (herr : hasErr (walkTree (entryAllowed rules w sh) w.input fs) = true) :
    (Walker.traverse w sh iL fs).outcome = .error (.traversal (.walkFailed w.input)) := by
  simp only [Walker.traverse, hnew]
  exact runLoop_err w _ herr "" 0 true

/-- C1 (witness): the amended statement instantiated on a concrete tree
holding one readable file and one inaccessible entry. -/
theorem c1_walk_error_aborts_run_witness :
    (Walker.traverse wRoundTrip false none fsDenied).outcome =
      .error (.traversal (.walkFailed wRoundTrip.input)) :=
  c1_walk_error_aborts_run none wRoundTrip false fsDenied [] (by decide) (by decide)

/-- C2 (counterexample): the walked entry `./out.txt` and the configured
output path `out.txt` denote the same file by canonical identity, yet the
entry is not skipped: it is counted (the run reports 2 files, not 1) and
a record headed `==> out.txt` is emitted for it — the engine does not
compare by canonical identity.  Its content is the in-progress output
(the header just written), since the destination was truncated at open;
the prior content `OLD` never appears. -/
theorem c2_counterexample :
    canonPath [".", "out.txt"] = canonPath ["out.txt"] ∧
    Walker.traverse wSelfRef false none fsSelfRef =
      ⟨some "==> out.txt\n==> out.txt\n\n==> x.txt\nhi\n", .ok 2⟩ :=
  ⟨by decide, by decide⟩

/-- C2 (amended): an entry is skipped exactly when its path equals the
output destination path literally (component-wise), and such an entry
changes neither the accumulated output nor the running file count.  An
entry denoting the output under a different spelling is counted and
emitted, but reads the in-progress output (the destination is truncated
at open, before the walk), so the output file's prior content still never
appears in a record. -/
theorem c2_output_path_entry_skipped (w : Walker) (k : EKind) (items : List WalkItem)
    (acc : String) (n : Nat) (first : Bool) :
    runLoop w (.ok w.output k :: items) acc n first = runLoop w items acc n first := by
  simp [runLoop]

/-- C3: on a tree holding exactly `a.txt` ("hello") and `b/c.txt`
("world"), with the exclusion root equal to the input root, the run
writes exactly the two records with `==> ` headers relative to the root,
trimmed content, one newline each, one blank line between them and
nothing after the final newline (in one of the two enumeration orders). -/
theorem c3_format_round_trip :
    Walker.traverse wRoundTrip false none fsRoundTrip =
      ⟨some "==> a.txt\nhello\n\n==> b/c.txt\nworld\n", .ok 2⟩ ∨
    Walker.traverse wRoundTrip false none fsRoundTrip =
      ⟨some "==> b/c.txt\nworld\n\n==> a.txt\nhello\n", .ok 2⟩ :=
  Or.inl (by decide)

/-- C4: if the exclusion matcher excludes a directory path `d` (with
directory semantics) lying under the input root, then no path strictly
below `d` is ever yielded by the filtered walk, and in particular no
record for any file below `d` appears in the record stream of the run —
even when the file itself matches no pattern. -/
theorem c4_excluded_dir_prunes_subtree (iL : Option (List String)) (w : Walker)
    (sh : Bool) (fs : Entry) (rules : List Rule) (d q : List String)
    (_hnew : ExcludeMatcher.new iL w.excludePatterns = .ok rules)
    (hex : ExcludeMatcher.isExcluded rules w.root d true = true)
    (hin : isPfx w.input d = true)
    (hdq : isPfx d q = true) (hne : d ≠ q) :
    (∀ k, WalkItem.ok q k ∉ walkTree (entryAllowed rules w sh) w.input fs) ∧
    ∀ c, (q, c) ∉ walkRecords rules w sh fs := by
  have hd : ∀ cs', entryAllowed rules w sh d (.dir cs') = false := by
    intro cs'
    simp [entryAllowed, Entry.isDir, hex]
  have hwalk : ∀ k, WalkItem.ok q k ∉ walkTree (entryAllowed rules w sh) w.input fs := by
    intro k hk
    exact hne (pruneTree hd w.input fs hin (.ok q k) hk hdq)
  refine ⟨hwalk, fun c hc => ?_⟩
  rw [walkRecords, recsOfItems] at hc
  rcases List.mem_filterMap.mp hc with ⟨i, hi, hfi⟩
  cases i with
  | err r => simp at hfi
  | ok r k =>
    cases k with
    | dir => simp at hfi
    | file c' =>
      by_cases hr : r = w.output
      · simp [hr] at hfi
      · simp only [hr, if_false, if_neg hr, Option.some.injEq, Prod.mk.injEq] at hfi
        obtain ⟨rfl, rfl⟩ := hfi
        exact hwalk (.file c') hi

/-- C4 (witness): with the CLI pattern `b`, the file `b/c.txt` of the
round-trip tree produces no record. -/
theorem c4_witness :
    (["r", "b", "c.txt"], "world") ∉
      walkRecords [⟨false, false, false, [.comp [.lit 'b']]⟩] wExclB false fsRoundTrip :=
  (c4_excluded_dir_prunes_subtree none wExclB false fsRoundTrip
    [⟨false, false, false, [.comp [.lit 'b']]⟩] ["r", "b"] ["r", "b", "c.txt"]
    (by decide) (by decide) (by decide) (by decide) (by decide)).2 "world"

/-- C5 (counterexample): an unclosed-class line `[` in the ignore-file
does not make matcher construction fail — the error is discarded, the
build returns an empty rule list, and the run proceeds to create the
output and write records, contrary to the claim that any failing pattern
line aborts before any writing. -/
theorem c5_counterexample :
    ExcludeMatcher.new (some ["["]) [] = .ok [] ∧
    (Walker.traverse wRoundTrip false (some ["["]) fsOneFile).written =
      some "==> a.txt\nhi\n" :=
  ⟨by decide, by decide⟩

/-- C5 (amended): when a CLI exclusion pattern fails to compile, matcher
construction fails with the underlying glob error naming the offending
pattern (no index), the run aborts with that error, and the output
destination is neither created nor truncated; the failing pattern is one
of the CLI patterns whose line fails to parse. -/
theorem c5_cli_pattern_error_aborts (w : Walker) (sh : Bool) (iL : Option (List String))
    (fs : Entry) (e : GlobError)
    (h : ExcludeMatcher.new iL w.excludePatterns = .error e) :
    Walker.traverse w sh iL fs = ⟨none, .error (.pattern e)⟩ ∧
    ∃ p, p ∈ w.excludePatterns ∧ e = .invalidGlob p ∧ parseLine p = .error () := by
  refine ⟨by simp only [Walker.traverse, h], ?_⟩
  exact addCli_error w.excludePatterns (parseIgnoreFileRules (iL.getD [])) e h

/-- C5 (witness): the amended statement instantiated on the CLI pattern
`[`. -/
theorem c5_witness :
    Walker.traverse wBadPattern false none fsOneFile =
      ⟨none, .error (.pattern (.invalidGlob "["))⟩ :=
  (c5_cli_pattern_error_aborts wBadPattern false none fsOneFile (.invalidGlob "[")
    (by decide)).1

/-- C6: on an error-free walk, a run admitting zero files fails with
`TraversalError::NoFilesFound` naming the input root, a run admitting at
least one file succeeds with the record count, and `NoFilesFound` is
distinguishable from the walk-failure kind. -/
theorem c6_no_files_found (iL : Option (List String)) (w : Walker) (sh : Bool)
    (fs : Entry) (rules : List Rule)
    (hnew : ExcludeMatcher.new iL w.excludePatterns = .ok rules)
    (hok : hasErr (walkTree (entryAllowed rules w sh) w.input fs) = false) :
    ((walkRecords rules w sh fs = [] →
        (Walker.traverse w sh iL fs).outcome =
          .error (.traversal (.noFilesFound w.input))) ∧
      (walkRecords rules w sh fs ≠ [] →
        (Walker.traverse w sh iL fs).outcome = .ok (walkRecords rules w sh fs).length)) ∧
    ∀ p₁ p₂ : List String, TraversalError.noFilesFound p₁ ≠ TraversalError.walkFailed p₂ := by
  have houtc := runLoop_outcome w _ hok "" 0 true
  refine ⟨⟨fun hz => ?_, fun hnz => ?_⟩, fun p₁ p₂ h => TraversalError.noConfusion h⟩
  · simp only [Walker.traverse, hnew]
    rw [houtc]
    rw [walkRecords] at hz
    simp [finishCount, hz]
  · simp only [Walker.traverse, hnew]
    rw [houtc]
    rw [walkRecords] at hnz
    have hlen : ¬(recsOfItems w (walkTree (entryAllowed rules w sh) w.input fs)).length = 0 := by
      intro h0
      exact hnz (List.length_eq_zero.mp h0)
    simp [finishCount, hlen, walkRecords]

/-- C6 (witness): an empty input root fails with `NoFilesFound ["r"]`; a
one-file root succeeds with count 1. -/
theorem c6_witness :
    (Walker.traverse wRoundTrip false none fsEmptyDir).outcome =
      .error (.traversal (.noFilesFound wRoundTrip.input)) ∧
    (Walker.traverse wRoundTrip false none fsOneFile).outcome = .ok 1 := by
  constructor
  · exact (c6_no_files_found none wRoundTrip false fsEmptyDir [] (by decide)
      (by decide)).1.1 (by decide)
  · have h := (c6_no_files_found none wRoundTrip false fsOneFile [] (by decide)
      (by decide)).1.2 (by decide)
    have hl : (walkRecords [] wRoundTrip false fsOneFile).length = 1 := by decide
    rw [hl] at h
    exact h

/-- C7: for the matcher built from `foo/*` then `!foo/keep.txt`,
`is_excluded` is false on `foo/keep.txt` and true on every other file
directly under `foo/`: the last applicable rule wins and a leading `!`
negates a previous exclusion. -/
theorem c7_negation_precedence (root : List String) (rules : List Rule)
    (hnew : ExcludeMatcher.new none ["foo/*", "!foo/keep.txt"] = .ok rules) :
    ExcludeMatcher.isExcluded rules root (root ++ ["foo", "keep.txt"]) false = false ∧
    ∀ name : String, name ≠ "keep.txt" →
      ExcludeMatcher.isExcluded rules root (root ++ ["foo", name]) false = true := by
  have hc : ExcludeMatcher.new none ["foo/*", "!foo/keep.txt"] = .ok c7rules := by decide
  rw [hc] at hnew
  have hr : rules = c7rules := (Except.ok.inj hnew).symm
  subst hr
  constructor
  · rw [isExcluded_append]
    decide
  · intro name hname
    rw [isExcluded_append]
    have hd : ¬("keep.txt".data = name.data) := fun hdata =>
      hname ((String.ext hdata).symm)
    have happ2 : c7r2.applies ["foo", name] false =
        (matchComp ("foo".data.map GlobTok.lit) "foo".data &&
          (matchComp ("keep.txt".data.map GlobTok.lit) name.data && true)) := rfl
    have hr2f : ¬(c7r2.applies (stripPfx [] ["foo", name]) false = true) := by
      rw [stripPfx_nil, happ2, matchComp_lits, matchComp_lits]
      simp [hd]
    have happ1 : c7r1.applies ["foo", name] false =
        (matchComp ("foo".data.map GlobTok.lit) "foo".data &&
          (matchComp [GlobTok.star] name.data && true)) := rfl
    have hr1f : c7r1.applies (stripPfx [] ["foo", name]) false = true := by
      rw [stripPfx_nil, happ1, matchComp_lits, matchComp_star_any]
      simp
    rw [ExcludeMatcher.isExcluded,
      show c7rules.reverse = [c7r2, c7r1] from by decide,
      @List.find?_cons_of_neg _ (fun r =>
        Rule.applies r (stripPfx [] ["foo", name]) false) c7r2 [c7r1] hr2f,
      @List.find?_cons_of_pos _ (fun r =>
        Rule.applies r (stripPfx [] ["foo", name]) false) c7r1 [] hr1f]
    decide

/-- C7 (witness): the statement instantiated at root `["r"]` and the
other file name `other.txt`. -/
theorem c7_witness :
    ExcludeMatcher.isExcluded c7rules ["r"] (["r"] ++ ["foo", "keep.txt"]) false = false ∧
    ExcludeMatcher.isExcluded c7rules ["r"] (["r"] ++ ["foo", "other.txt"]) false = true := by
  have h := c7_negation_precedence ["r"] c7rules (by decide)
  exact ⟨h.1, h.2 "other.txt" (by decide)⟩

/-- C9: building two matchers from the same ignore-file state and the
same pattern sequence yields matchers whose `is_excluded` results agree
on every path. -/
theorem c9_matcher_build_deterministic (iL : Option (List String)) (cli : List String)
    (root p : List String) (isDir : Bool) (m1 m2 : List Rule)
    (h1 : ExcludeMatcher.new iL cli = .ok m1)
    (h2 : ExcludeMatcher.new iL cli = .ok m2) :
    ExcludeMatcher.isExcluded m1 root p isDir = ExcludeMatcher.isExcluded m2 root p isDir := by
  have hm : m1 = m2 := Except.ok.inj (h1.symm.trans h2)
  rw [hm]

/-- C9 (witness): the statement instantiated on two builds from the
pattern list `["b"]`. -/
theorem c9_witness :
    ExcludeMatcher.isExcluded [⟨false, false, false, [.comp [.lit 'b']]⟩] ["r"] ["r", "b"] true =
      ExcludeMatcher.isExcluded [⟨false, false, false, [.comp [.lit 'b']]⟩] ["r"] ["r", "b"] true :=
  c9_matcher_build_deterministic none ["b"] ["r"] ["r", "b"] true
    [⟨false, false, false, [.comp [.lit 'b']]⟩] [⟨false, false, false, [.comp [.lit 'b']]⟩]
    (by decide) (by decide)

/-- C10: the record header uses the path relative to the exclusion root
exactly when the entry path lies under that root; otherwise the header
contains the full unmodified path. -/
theorem c10_header_relative_iff_under_root (root p : List String) (c : String) :
    (isPfx root p = false →
      renderRecord root p c = "==> " ++ joinSlash p ++ "\n" ++ rustTrimEnd c ++ "\n") ∧
    (isPfx root p = true →
      renderRecord root p c =
        "==> " ++ joinSlash (p.drop root.length) ++ "\n" ++ rustTrimEnd c ++ "\n") := by
  constructor <;> intro h <;> simp [renderRecord, stripPfx, h]

/-- C10 (witness): a path not under the root keeps its full display; one
under the root is relativised. -/
theorem c10_witness :
    renderRecord ["r"] ["q", "f.txt"] "x" = "==> q/f.txt\nx\n" ∧
    renderRecord ["r"] ["r", "f.txt"] "x" = "==> f.txt\nx\n" :=
  ⟨((c10_header_relative_iff_under_root ["r"] ["q", "f.txt"] "x").1 (by decide)).trans
      (by decide),
    ((c10_header_relative_iff_under_root ["r"] ["r", "f.txt"] "x").2 (by decide)).trans
      (by decide)⟩

end TreeClip
